import Mathlib

/-!
Shallow embedding of `src/main.go` (tarbu), a backup orchestrator.

The program archives each configured entry's path into
`<Dst>/<Name>.tar.gz.<unixTimestamp>` by shelling out to `tar`, then prunes
old bundles: it globs `<Name>.tar.gz.*`, sorts the matches by the integer
value of the final extension (`tsSortable.Less` parses it with
`strconv.ParseInt(..., 10, 64)` and panics on a parse error), and removes
the head of the list while `len(matchs) > config.KeepGen`.

Environment-dependent effects (the `tar` subprocess, `filepath.Glob`,
`os.Remove`, `syscall.Access` on the destination) are modelled as oracle
inputs (`jobEnv`, `dstErr`); Go `error` values are modelled as `String`.
Go panics — which crash the whole process, since `backupImpl` runs in a
goroutine with no `recover` — are modelled by the `Except goPanic` layer.
-/

/-- Go `error` values, abstracted to their message. -/
abbrev goErr := String

/-- Go struct `backupEntry` (src/main.go:22). -/
structure backupEntry where
  Name : String
  Path : String
deriving DecidableEq

/-- Go struct `backupConfig` (src/main.go:27). `KeepGen` is a Go `int`:
nothing in JSON decoding or validation restricts it to be non-negative,
so it is modelled as `Int`. -/
structure backupConfig where
  Dst : String
  KeepGen : Int
  Entries : List backupEntry
deriving DecidableEq

/-- Go struct `result` (src/main.go:96): one outcome per entry. -/
structure result where
  name : String
  err : Option goErr
deriving DecidableEq

/-- A Go runtime panic. Both arise inside `backupImpl` and crash the whole
process (no `recover` anywhere): `malformedName` from `tsSortable.Less`
(src/main.go:110,113; also covers the `[1:]` slice-bounds panic when a match
has no dot), `indexOutOfRange` from `matchs[0]` on an empty slice
(src/main.go:138). -/
inductive goPanic where
  | malformedName
  | indexOutOfRange
deriving DecidableEq

/-- Numeric value of a decimal digit character. -/
def digitVal (c : Char) : Option Nat :=
  if '0' ≤ c ∧ c ≤ '9' then some (c.toNat - '0'.toNat) else none

/-- Value of a run of decimal digits; `none` if any character is not a
digit. (The empty list yields `some 0`; emptiness is rejected by
`parseInt64`.) -/
def digitsVal (cs : List Char) : Option Nat :=
  cs.foldl
    (fun acc c =>
      match acc, digitVal c with
      | some n, some d => some (n * 10 + d)
      | _, _ => none)
    (some 0)

def int64Max : Int := 9223372036854775807

def int64MinAbs : Int := 9223372036854775808

/-- Go `strconv.ParseInt(s, 10, 64)` (used at src/main.go:109,112):
optional leading sign, then at least one decimal digit, value within the
signed 64-bit range; `none` models a returned error. Underscore digit
separators are not accepted when the base is given explicitly. -/
def parseInt64 (cs : List Char) : Option Int :=
  match cs with
  | [] => none
  | '+' :: rest =>
    match rest, digitsVal rest with
    | _ :: _, some n => if (n : Int) ≤ int64Max then some (n : Int) else none
    | _, _ => none
  | '-' :: rest =>
    match rest, digitsVal rest with
    | _ :: _, some n => if (n : Int) ≤ int64MinAbs then some (-(n : Int)) else none
    | _, _ => none
  | _ =>
    match digitsVal cs with
    | some n => if (n : Int) ≤ int64Max then some (n : Int) else none
    | none => none

/-- The characters strictly after the last `.` of `s`, or `none` when `s`
has no dot. Models Go `filepath.Ext(s)[1:]` (src/main.go:109): `Ext`
returns the suffix starting at the final dot. Every glob match contains
`.tar.gz.`, so on real matches a dot is always present; the dotless case
(where Go would panic on the `[1:]` slice) is folded into `none`, which
`sortMatches` turns into the same process-crashing panic. -/
def afterLastDot (s : String) : Option (List Char) :=
  let r := s.toList.reverse
  let pre := r.takeWhile (fun c => c ≠ '.')
  if pre.length = r.length then none else some pre.reverse

/-- The parsed integer timestamp suffix of a bundle name, as computed by
`tsSortable.Less` for each compared element (src/main.go:109–114). -/
def tsKey (s : String) : Option Int :=
  match afterLastDot s with
  | none => none
  | some cs => parseInt64 cs

/-- Total key used to state ordering facts; agrees with `tsKey` whenever
the suffix parses (every context using it has already excluded `none`). -/
def keyOf (s : String) : Int := (tsKey s).getD 0

/-- Go `tsSortable.Less` (src/main.go:106): `none` models the panic on a
parse failure of either argument, `some b` the returned comparison of the
two parsed timestamps. -/
def less (x y : String) : Option Bool :=
  match tsKey x with
  | none => none
  | some tsi =>
    match tsKey y with
    | none => none
    | some tsj => some (decide (tsi < tsj))

/-- Key ordering on bundle names. -/
def leKey (x y : String) : Prop := keyOf x ≤ keyOf y

instance : DecidableRel leKey := fun x y => inferInstanceAs (Decidable (keyOf x ≤ keyOf y))

/-- Go `sort.Sort(tsSortable(matchs))` (src/main.go:136), including the
panic behaviour of `Less`. A correct comparison sort calls `Less` on every
element at least once when the list has two or more elements (otherwise an
element's relative position would be undetermined), and calls it never on
lists of length at most one; so the `Less` panic fires exactly when the
list has length ≥ 2 and contains a match whose suffix does not parse.
`sort.Sort` is unstable, but on distinct keys the sorted permutation is
unique; `insertionSort` by key is that permutation (a determinisation on
tied keys, which cannot occur for real timestamp bundles of one entry). -/
def sortMatches (ms : List String) : Except goPanic (List String) :=
  if ms.length ≤ 1 then .ok ms
  else if ms.any (fun m => (tsKey m).isNone) then .error .malformedName
  else .ok (ms.insertionSort leKey)

/-- Outcome of the deletion loop at src/main.go:137–143. `deleted` lists
the files removed so far in order; `remaining` is the value of `matchs`
when the loop stops. -/
inductive pruneResult where
  | ok (remaining deleted : List String)
  | deletionFailed (deleted : List String) (failedFile : String) (e : goErr) (remaining : List String)
  | outOfBounds (deleted : List String)
deriving DecidableEq

/-- The loop `for len(matchs) > config.KeepGen { os.Remove(matchs[0]); ... }`
(src/main.go:137–143). `removeErr f` is the oracle for `os.Remove(f)`.
When the loop condition holds on an empty list (possible only for negative
`keepGen`), Go's `matchs[0]` panics: `outOfBounds`. -/
def pruneLoop (keepGen : Int) (removeErr : String → Option goErr) :
    List String → List String → pruneResult
  | [], deleted =>
    if (0 : Int) > keepGen then .outOfBounds deleted else .ok [] deleted
  | f :: rest, deleted =>
    if (((f :: rest).length : Int)) > keepGen then
      match removeErr f with
      | some e => .deletionFailed deleted f e (f :: rest)
      | none => pruneLoop keepGen removeErr rest (deleted ++ [f])
    else .ok (f :: rest) deleted

/-- Environment oracle for one entry's job: the outcome of `cmd.Run()` for
the `tar` invocation (src/main.go:126), of `filepath.Glob` (src/main.go:131,
where `.ok ms` carries the matched bundle names, including the bundle the
job just created), and of each `os.Remove` (src/main.go:138). -/
structure jobEnv where
  archiveErr : Option goErr
  globResult : Except goErr (List String)
  removeErr : String → Option goErr

/-- Filesystem-affecting steps a job performs, in order: the glob listing,
the sort of the matches, and each `os.Remove` attempt. -/
inductive action where
  | glob
  | sort
  | remove (f : String)
deriving DecidableEq

/-- Go `backupImpl` (src/main.go:118–146) for one entry: the sole `result`
it sends on the channel, paired with the trace of retention steps it
performed; `.error` models a panic that crashes the process before any
result is sent. -/
def backupImpl (ent : backupEntry) (keepGen : Int) (env : jobEnv) :
    Except goPanic (result × List action) :=
  match env.archiveErr with
  | some e => .ok ({ name := ent.Name, err := some e }, [])
  | none =>
    match env.globResult with
    | .error e => .ok ({ name := ent.Name, err := some e }, [action.glob])
    | .ok matchs =>
      match sortMatches matchs with
      | .error p => .error p
      | .ok sorted =>
        match pruneLoop keepGen env.removeErr sorted [] with
        | .outOfBounds _ => .error .indexOutOfRange
        | .deletionFailed del f e _ =>
          .ok ({ name := ent.Name, err := some e },
            [action.glob, action.sort] ++ del.map action.remove ++ [action.remove f])
        | .ok _ del =>
          .ok ({ name := ent.Name, err := none },
            [action.glob, action.sort] ++ del.map action.remove)

/-- The fan-out of `backup` (src/main.go:148–167): one `backupImpl` per
entry, one oracle per entry. Goroutines run concurrently and the channel
delivers results in completion order; the model fixes entry order, which
is one admissible linearisation. A panic in any worker crashes the whole
process (`.error`). Surplus oracles are ignored; theorems always supply
one oracle per entry. -/
def runJobs (keepGen : Int) : List backupEntry → List jobEnv → Except goPanic (List result)
  | [], _ => .ok []
  | _ :: _, [] => .ok []
  | e :: es, env :: envs =>
    match backupImpl e keepGen env with
    | .error p => .error p
    | .ok (r, _) =>
      match runJobs keepGen es envs with
      | .error p => .error p
      | .ok rs => .ok (r :: rs)

/-- Go `backup` (src/main.go:148): runs every entry's job and collects the
results. -/
def backup (config : backupConfig) (envs : List jobEnv) : Except goPanic (List result) :=
  runJobs config.KeepGen config.Entries envs

/-- The scan inside `isNameDuplicated` (src/main.go:64–76): walk the names
in order, returning the first one already seen; `seen` models the Go map
(membership only — insertion order is irrelevant to map lookup). -/
def findDup : List String → List String → Option String
  | [], _ => none
  | n :: rest, seen =>
    if n ∈ seen then some n else findDup rest (n :: seen)

/-- Go `(*backupConfig).isNameDuplicated` (src/main.go:64), reported as the
offending name (the Go error message embeds exactly that name). -/
def isNameDuplicated (config : backupConfig) : Option goErr :=
  findDup (config.Entries.map backupEntry.Name) []

/-- Go `(*backupConfig).isValid` (src/main.go:33): destination check first
(its filesystem outcome is the oracle `dstErr`), then the duplicate-name
check. Note it never reads `KeepGen`. -/
def isValid (dstErr : Option goErr) (config : backupConfig) : Option goErr :=
  match dstErr with
  | some e => some e
  | none => isNameDuplicated config

/-! ### Supporting lemmas -/

/-- When every match's suffix parses, the sort step succeeds and returns a
permutation of the matches that is sorted by parsed timestamp. -/
theorem sortMatches_ok (ms : List String) (hparse : ∀ f ∈ ms, (tsKey f).isSome) :
    ∃ l, sortMatches ms = .ok l ∧ l.Perm ms ∧ l.Pairwise leKey := by
  unfold sortMatches
  split
  · next hlen =>
    refine ⟨ms, rfl, List.Perm.refl ms, ?_⟩
    cases ms with
    | nil => exact List.Pairwise.nil
    | cons a t =>
      cases t with
      | nil => simp
      | cons b t2 => simp [List.length_cons] at hlen
  · next hlen =>
    have hany : ms.any (fun m => (tsKey m).isNone) = false := by
      rw [List.any_eq_false]
      intro x hx
      have h2 := hparse x hx
      simp only [Option.isSome_iff_ne_none] at h2
      simpa using h2
    rw [hany]
    haveI : IsTotal String leKey := ⟨fun a b => le_total (keyOf a) (keyOf b)⟩
    haveI : IsTrans String leKey := ⟨fun a b c hab hbc => le_trans hab hbc⟩
    exact ⟨ms.insertionSort leKey, by simp, List.perm_insertionSort leKey ms,
      List.sorted_insertionSort leKey ms⟩

/-- With a non-negative `keepGen` and all removals succeeding, the loop
deletes exactly the first `length - keepGen` elements and keeps the rest. -/
theorem pruneLoop_all_success (keepGen : Int) (removeErr : String → Option goErr)
    (hk : 0 ≤ keepGen) (hδ : ∀ f, removeErr f = none) (l : List String) :
    ∀ del, pruneLoop keepGen removeErr l del =
      .ok (l.drop (l.length - keepGen.toNat)) (del ++ l.take (l.length - keepGen.toNat)) := by
  induction l with
  | nil =>
    intro del
    unfold pruneLoop
    rw [if_neg (by omega)]
    simp
  | cons f rest ih =>
    intro del
    unfold pruneLoop
    split
    · next hcond =>
      simp only [hδ f]
      rw [ih (del ++ [f])]
      simp only [List.length_cons] at hcond ⊢
      have h1 : rest.length + 1 - keepGen.toNat = (rest.length - keepGen.toNat) + 1 := by
        omega
      rw [h1]
      simp [List.append_assoc]
    · next hcond =>
      simp only [List.length_cons] at hcond ⊢
      have h0 : rest.length + 1 - keepGen.toNat = 0 := by omega
      rw [h0]
      simp

/-- With a negative `keepGen` and all removals succeeding, the loop drains
the whole list and then reads `matchs[0]` out of bounds. -/
theorem pruneLoop_neg (keepGen : Int) (removeErr : String → Option goErr)
    (hk : keepGen < 0) (hδ : ∀ f, removeErr f = none) (l : List String) :
    ∀ del, pruneLoop keepGen removeErr l del = .outOfBounds (del ++ l) := by
  induction l with
  | nil =>
    intro del
    unfold pruneLoop
    rw [if_pos (by omega)]
    simp
  | cons f rest ih =>
    intro del
    unfold pruneLoop
    rw [if_pos (by omega)]
    simp only [hδ f]
    rw [ih (del ++ [f])]
    simp

/-- With a non-negative `keepGen`, the loop never reads out of bounds. -/
theorem pruneLoop_no_oob (keepGen : Int) (removeErr : String → Option goErr)
    (hk : 0 ≤ keepGen) (l : List String) :
    ∀ del d, pruneLoop keepGen removeErr l del ≠ .outOfBounds d := by
  induction l with
  | nil =>
    intro del d
    unfold pruneLoop
    rw [if_neg (by omega)]
    simp
  | cons f rest ih =>
    intro del d
    unfold pruneLoop
    split
    · cases hre : removeErr f with
      | some e => simp
      | none => exact ih (del ++ [f]) d
    · simp

/-- Anatomy of a failed prune: the successful deletions form the prefix of
the list before the failing file, the failing file's removal returned the
reported error, nothing after it was attempted, and the untouched tail
(still over quota) starts with the failing file. -/
theorem pruneLoop_deletionFailed_spec (keepGen : Int) (removeErr : String → Option goErr)
    (l : List String) :
    ∀ del q f e rem, pruneLoop keepGen removeErr l del = .deletionFailed q f e rem →
      ∃ p, q = del ++ p ∧ l = p ++ rem ∧ (∀ x ∈ p, removeErr x = none) ∧
        removeErr f = some e ∧ rem = f :: rem.tail ∧ keepGen < (rem.length : Int) := by
  induction l with
  | nil =>
    intro del q f e rem h
    unfold pruneLoop at h
    split at h
    · cases h
    · cases h
  | cons g rest ih =>
    intro del q f e rem h
    unfold pruneLoop at h
    split at h
    · next hcond =>
      cases hre : removeErr g with
      | some e0 =>
        rw [hre] at h
        injection h with hq hf he hrem
        subst hq
        subst hf
        subst he
        subst hrem
        refine ⟨[], by simp, by simp, by simp, hre, rfl, ?_⟩
        exact hcond
      | none =>
        rw [hre] at h
        obtain ⟨p, hp1, hp2, hp3, hp4, hp5, hp6⟩ := ih (del ++ [g]) q f e rem h
        refine ⟨g :: p, by simp [hp1], by simp [hp2], ?_, hp4, hp5, hp6⟩
        intro x hx
        rcases List.mem_cons.mp hx with rfl | hx2
        · exact hre
        · exact hp3 x hx2
    · cases h

/-- On every non-panicking exit path, the single result a job produces
carries its own entry's name. -/
theorem backupImpl_ok_name (ent : backupEntry) (keepGen : Int) (env : jobEnv)
    (r : result) (tr : List action) (h : backupImpl ent keepGen env = .ok (r, tr)) :
    r.name = ent.Name := by
  unfold backupImpl at h
  repeat' split at h
  all_goals first
    | (injection h with h1
       injection h1 with h2 h3
       rw [← h2])
    | cases h

/-- The duplicate scan returns `none` exactly when the remaining names are
pairwise distinct and none of them was already seen. -/
theorem findDup_eq_none (ns : List String) :
    ∀ seen, (findDup ns seen = none ↔ ns.Nodup ∧ ∀ x ∈ ns, x ∉ seen) := by
  induction ns with
  | nil =>
    intro seen
    simp [findDup]
  | cons n rest ih =>
    intro seen
    unfold findDup
    split
    · next hmem =>
      constructor
      · intro h
        cases h
      · rintro ⟨-, hall⟩
        exact absurd hmem (hall n (List.mem_cons_self n rest))
    · next hmem =>
      rw [ih (n :: seen)]
      constructor
      · rintro ⟨hnd, hall⟩
        refine ⟨List.nodup_cons.mpr ⟨fun hn => (hall n hn) (List.mem_cons_self n seen), hnd⟩,
          ?_⟩
        intro x hx
        rcases List.mem_cons.mp hx with rfl | hx2
        · exact hmem
        · exact fun hxs => (hall x hx2) (List.mem_cons_of_mem n hxs)
      · rintro ⟨hnd, hall⟩
        obtain ⟨hnr, hnd2⟩ := List.nodup_cons.mp hnd
        refine ⟨hnd2, ?_⟩
        intro x hx hxin
        rcases List.mem_cons.mp hxin with rfl | hxs
        · exact hnr hx
        · exact (hall x (List.mem_cons_of_mem n hx)) hxs

/-- The duplicate scan returns `some d` exactly when the list splits as
`u ++ d :: v` where the prefix `u` contains no duplicate relative to the
already-seen set and `d` repeats an earlier name: `d` is the first
duplicate in scan order. -/
theorem findDup_eq_some (ns : List String) :
    ∀ seen d, (findDup ns seen = some d ↔
      ∃ u v, ns = u ++ d :: v ∧ u.Nodup ∧ (∀ x ∈ u, x ∉ seen) ∧ (d ∈ seen ∨ d ∈ u)) := by
  induction ns with
  | nil =>
    intro seen d
    simp [findDup]
  | cons n rest ih =>
    intro seen d
    unfold findDup
    split
    · next hmem =>
      constructor
      · intro h
        injection h with h1
        subst h1
        exact ⟨[], rest, rfl, List.nodup_nil, by simp, Or.inl hmem⟩
      · rintro ⟨u, v, hsplit, hnd, hnotseen, hd⟩
        cases u with
        | nil =>
          injection hsplit with e1 e2
          exact congrArg some e1
        | cons u0 us =>
          injection hsplit with e1 e2
          subst e1
          exact absurd hmem (hnotseen n (List.mem_cons_self _ _))
    · next hmem =>
      rw [ih (n :: seen) d]
      constructor
      · rintro ⟨u, v, hsplit, hnd, hnotseen, hd⟩
        refine ⟨n :: u, v, by rw [hsplit, List.cons_append], ?_, ?_, ?_⟩
        · exact List.nodup_cons.mpr
            ⟨fun hn => (hnotseen n hn) (List.mem_cons_self n seen), hnd⟩
        · intro x hx
          rcases List.mem_cons.mp hx with rfl | hx2
          · exact hmem
          · exact fun hxs => (hnotseen x hx2) (List.mem_cons_of_mem n hxs)
        · rcases hd with hd | hd
          · rcases List.mem_cons.mp hd with rfl | hds
            · exact Or.inr (List.mem_cons_self d u)
            · exact Or.inl hds
          · exact Or.inr (List.mem_cons_of_mem n hd)
      · rintro ⟨u, v, hsplit, hnd, hnotseen, hd⟩
        cases u with
        | nil =>
          injection hsplit with e1 e2
          subst e1
          rcases hd with hd | hd
          · exact absurd hd hmem
          · cases hd
        | cons u0 us =>
          injection hsplit with e1 e2
          subst e1
          refine ⟨us, v, e2, (List.nodup_cons.mp hnd).2, ?_, ?_⟩
          · intro x hx
            intro hxin
            rcases List.mem_cons.mp hxin with rfl | hxs
            · exact (List.nodup_cons.mp hnd).1 hx
            · exact (hnotseen x (List.mem_cons_of_mem _ hx)) hxs
          · rcases hd with hd | hd
            · exact Or.inl (List.mem_cons_of_mem n hd)
            · rcases List.mem_cons.mp hd with rfl | hds
              · exact Or.inl (List.mem_cons_self _ _)
              · exact Or.inr hds

/-! ### Claim theorems -/

/-- Claim C3: for any pair of bundle names whose timestamp suffixes both
parse, the retention ordering `tsSortable.Less` returns exactly the
numeric comparison of the parsed integer suffixes — never a lexical
comparison, and independent of the digit counts of the two suffixes. -/
theorem less_compares_numerically (x y : String) (a b : Int)
    (hx : tsKey x = some a) (hy : tsKey y = some b) :
    less x y = some (decide (a < b)) := by
  unfold less
  rw [hx, hy]

/-- Claim C3 witness: the ten-digit suffix 9999999999 orders before the
eleven-digit 10000000000, although the lexical (character-wise) order of
the two names is the reverse. -/
theorem less_compares_numerically_witness :
    tsKey "db.tar.gz.9999999999" = some 9999999999 ∧
    tsKey "db.tar.gz.10000000000" = some 10000000000 ∧
    less "db.tar.gz.9999999999" "db.tar.gz.10000000000" = some true ∧
    "db.tar.gz.10000000000".toList < "db.tar.gz.9999999999".toList :=
  ⟨rfl, rfl,
    (less_compares_numerically "db.tar.gz.9999999999" "db.tar.gz.10000000000"
        9999999999 10000000000 rfl rfl).trans (by decide),
    by decide⟩

/-- Claim C5: when the archiver invocation fails, the job's outcome carries
the entry's name and the archiver's error, and no retention work happens:
the trace of retention steps (listing, sorting, removals) is empty. -/
theorem archive_failure_skips_retention (ent : backupEntry) (keepGen : Int) (env : jobEnv)
    (e : goErr) (h : env.archiveErr = some e) :
    backupImpl ent keepGen env = .ok ({ name := ent.Name, err := some e }, []) := by
  unfold backupImpl
  rw [h]

/-- Claim C5 witness. -/
theorem archive_failure_skips_retention_witness :
    backupImpl ⟨"www", "/var/www"⟩ 3
        ⟨some "exit status 2", .ok ["www.tar.gz.5"], fun _ => none⟩ =
      .ok ({ name := "www", err := some "exit status 2" }, []) :=
  archive_failure_skips_retention ⟨"www", "/var/www"⟩ 3
    ⟨some "exit status 2", .ok ["www.tar.gz.5"], fun _ => none⟩ "exit status 2" rfl

/-- Claim C2 counterexample: an entry with two matches, one of which has a
non-integer suffix; the job produces no outcome for the entry at all —
`tsSortable.Less` panics, and the panic is a whole-process crash, not an
error surfaced for that prune call only. -/
theorem malformed_suffix_crashes_process :
    backupImpl ⟨"db", "/data/db"⟩ 3
        ⟨none, .ok ["db.tar.gz.100", "db.tar.gz.oops"], fun _ => none⟩ =
      .error goPanic.malformedName := rfl

/-- Claim C2 amended: a match whose suffix fails to parse as an integer is
never silently skipped when the prune call sees at least two matches, but
the condition is not confined to that prune call: the sort comparator
panics, crashing the whole process, and no outcome is produced for the
entry. -/
theorem malformed_suffix_panics (ent : backupEntry) (keepGen : Int) (env : jobEnv)
    (ms : List String) (f : String)
    (harch : env.archiveErr = none) (hglob : env.globResult = .ok ms)
    (hlen : 2 ≤ ms.length) (hf : f ∈ ms) (hbad : tsKey f = none) :
    backupImpl ent keepGen env = .error goPanic.malformedName := by
  have hsort : sortMatches ms = .error .malformedName := by
    unfold sortMatches
    rw [if_neg (by omega), if_pos]
    exact List.any_eq_true.mpr ⟨f, hf, by simp [hbad]⟩
  simp only [backupImpl, harch, hglob, hsort]

/-- Claim C2 amended witness. -/
theorem malformed_suffix_panics_witness :
    2 ≤ (["logs.tar.gz.7", "logs.tar.gz.seven"] : List String).length ∧
    backupImpl ⟨"logs", "/var/log"⟩ 1
        ⟨none, .ok ["logs.tar.gz.7", "logs.tar.gz.seven"], fun _ => none⟩ =
      .error goPanic.malformedName :=
  ⟨by decide,
    malformed_suffix_panics ⟨"logs", "/var/log"⟩ 1
      ⟨none, .ok ["logs.tar.gz.7", "logs.tar.gz.seven"], fun _ => none⟩
      ["logs.tar.gz.7", "logs.tar.gz.seven"] "logs.tar.gz.seven"
      rfl rfl (by decide) (by decide) (by decide)⟩

/-- Claim C9: with `keepGenerations = 0`, a job whose archive creation and
deletions all succeed removes every bundle matching the entry's pattern —
including the bundle created in the same run, which is among the glob
matches — and its outcome still reports success (`err = none`). -/
theorem keepgen_zero_deletes_all (ent : backupEntry) (env : jobEnv)
    (ms : List String) (created : String)
    (harch : env.archiveErr = none) (hglob : env.globResult = .ok ms)
    (hparse : ∀ f ∈ ms, (tsKey f).isSome)
    (hdel : ∀ f, env.removeErr f = none)
    (hcreated : created ∈ ms) :
    ∃ l, sortMatches ms = .ok l ∧ l.Perm ms ∧
      pruneLoop 0 env.removeErr l [] = .ok [] l ∧
      backupImpl ent 0 env =
        .ok ({ name := ent.Name, err := none },
          [action.glob, action.sort] ++ l.map action.remove) ∧
      action.remove created ∈ l.map action.remove := by
  obtain ⟨l, hsort, hperm, hpw⟩ := sortMatches_ok ms hparse
  have hploop := pruneLoop_all_success 0 env.removeErr le_rfl hdel l []
  simp only [Int.toNat_zero, Nat.sub_zero, List.drop_length, List.take_length,
    List.nil_append] at hploop
  refine ⟨l, hsort, hperm, hploop, ?_, ?_⟩
  · simp only [backupImpl, harch, hglob, hsort, hploop]
  · exact List.mem_map_of_mem action.remove (hperm.mem_iff.mpr hcreated)

/-- Claim C9 witness. -/
theorem keepgen_zero_deletes_all_witness :
    ("n.tar.gz.50" ∈ (["n.tar.gz.50", "n.tar.gz.40"] : List String)) ∧
    ∃ l, sortMatches ["n.tar.gz.50", "n.tar.gz.40"] = .ok l ∧
      l.Perm ["n.tar.gz.50", "n.tar.gz.40"] ∧
      pruneLoop 0 (fun _ => none) l [] = .ok [] l ∧
      backupImpl ⟨"n", "/data/n"⟩ 0
          ⟨none, .ok ["n.tar.gz.50", "n.tar.gz.40"], fun _ => none⟩ =
        .ok ({ name := "n", err := none },
          [action.glob, action.sort] ++ l.map action.remove) ∧
      action.remove "n.tar.gz.50" ∈ l.map action.remove :=
  ⟨by decide,
    keepgen_zero_deletes_all ⟨"n", "/data/n"⟩
      ⟨none, .ok ["n.tar.gz.50", "n.tar.gz.40"], fun _ => none⟩
      ["n.tar.gz.50", "n.tar.gz.40"] "n.tar.gz.50" rfl rfl (by decide) (fun _ => rfl)
      (by decide)⟩

/-- Claim C10: validation never examines `KeepGen` (changing it cannot
change the validation outcome), so a configuration with a negative
`keepGenerations` is accepted; under a negative `keepGen`, a job whose
archive creation and deletions all succeed drains its match list, still
re-enters the loop (`0 > keepGen` holds), and indexes element 0 of the
empty list — an out-of-bounds access, i.e. a Go panic. -/
theorem negative_keepgen_out_of_bounds (config : backupConfig) (dstErr : Option goErr) (k : Int)
    (ent : backupEntry) (keepGen : Int) (env : jobEnv) (ms : List String)
    (hneg : keepGen < 0)
    (harch : env.archiveErr = none) (hglob : env.globResult = .ok ms)
    (hparse : ∀ f ∈ ms, (tsKey f).isSome)
    (hdel : ∀ f, env.removeErr f = none) :
    isValid dstErr { config with KeepGen := k } = isValid dstErr config ∧
    backupImpl ent keepGen env = .error goPanic.indexOutOfRange := by
  constructor
  · rfl
  · obtain ⟨l, hsort, hperm, hpw⟩ := sortMatches_ok ms hparse
    have hloop := pruneLoop_neg keepGen env.removeErr hneg hdel l []
    simp only [backupImpl, harch, hglob, hsort, hloop]

/-- Claim C10 witness. -/
theorem negative_keepgen_out_of_bounds_witness :
    ((-1 : Int) < 0) ∧
    (isValid none ⟨"/tmp/bk", -1, [⟨"db", "/data/db"⟩]⟩ =
      isValid none ⟨"/tmp/bk", 7, [⟨"db", "/data/db"⟩]⟩ ∧
    backupImpl ⟨"db", "/data/db"⟩ (-1)
        ⟨none, .ok ["db.tar.gz.100", "db.tar.gz.200"], fun _ => none⟩ =
      .error goPanic.indexOutOfRange) :=
  ⟨by decide,
    negative_keepgen_out_of_bounds
      { Dst := "/tmp/bk", KeepGen := 7, Entries := [⟨"db", "/data/db"⟩] }
      none (-1) ⟨"db", "/data/db"⟩ (-1)
      ⟨none, .ok ["db.tar.gz.100", "db.tar.gz.200"], fun _ => none⟩
      ["db.tar.gz.100", "db.tar.gz.200"]
      (by decide) rfl rfl (by decide) (fun _ => rfl)⟩

/-- Claim C1: for an entry whose archive creation succeeds and whose
deletions all succeed, with `keepGenerations = keepGen ≥ 0` and `m`
matching bundles (the created one included, carried by the glob listing)
where `m > keepGen`: the prune loop removes exactly the `m - keepGen`
matches with the numerically smallest timestamp suffixes and leaves
exactly `keepGen` bundles, and the job reports success. -/
theorem prune_keeps_exactly_k (ent : backupEntry) (keepGen : Int) (env : jobEnv)
    (ms : List String) (m : Nat)
    (harch : env.archiveErr = none)
    (hglob : env.globResult = .ok ms)
    (hparse : ∀ f ∈ ms, (tsKey f).isSome)
    (hdist : ms.Pairwise (fun a b => keyOf a ≠ keyOf b))
    (hdel : ∀ f, env.removeErr f = none)
    (hm : ms.length = m)
    (hk : 0 ≤ keepGen)
    (hmk : keepGen < (m : Int)) :
    ∃ l, sortMatches ms = .ok l ∧ l.Perm ms ∧
      pruneLoop keepGen env.removeErr l [] =
        .ok (l.drop (m - keepGen.toNat)) (l.take (m - keepGen.toNat)) ∧
      (l.drop (m - keepGen.toNat)).length = keepGen.toNat ∧
      (l.take (m - keepGen.toNat)).length = m - keepGen.toNat ∧
      (∀ x ∈ l.take (m - keepGen.toNat), ∀ y ∈ l.drop (m - keepGen.toNat),
        keyOf x < keyOf y) ∧
      backupImpl ent keepGen env =
        .ok ({ name := ent.Name, err := none },
          [action.glob, action.sort] ++ (l.take (m - keepGen.toNat)).map action.remove) := by
  obtain ⟨l, hsort, hperm, hpw⟩ := sortMatches_ok ms hparse
  have hlen : l.length = m := by rw [hperm.length_eq, hm]
  have hploop := pruneLoop_all_success keepGen env.removeErr hk hdel l []
  rw [hlen] at hploop
  simp only [List.nil_append] at hploop
  have hdistl : l.Pairwise (fun a b => keyOf a ≠ keyOf b) :=
    (List.Perm.pairwise_iff (fun h => h.symm) hperm).mpr hdist
  have hstrict : l.Pairwise (fun a b => keyOf a < keyOf b) :=
    List.Pairwise.imp₂ (fun a b h1 h2 => lt_of_le_of_ne h1 h2) hpw hdistl
  have hsplit : ∀ x ∈ l.take (m - keepGen.toNat), ∀ y ∈ l.drop (m - keepGen.toNat),
      keyOf x < keyOf y :=
    (List.pairwise_append.mp
      (by rw [List.take_append_drop]; exact hstrict)).2.2
  refine ⟨l, hsort, hperm, hploop, ?_, ?_, hsplit, ?_⟩
  · rw [List.length_drop, hlen]
    omega
  · rw [List.length_take, hlen]
    omega
  · simp only [backupImpl, harch, hglob, hsort, hploop]

/-- Claim C1 witness: four bundles, keep two: the two numerically oldest
are removed, the two newest remain. -/
theorem prune_keeps_exactly_k_witness :
    (0 : Int) ≤ 2 ∧ (2 : Int) < (4 : Int) ∧
    ∃ l, sortMatches ["db.tar.gz.300", "db.tar.gz.100", "db.tar.gz.400", "db.tar.gz.200"] =
        .ok l ∧
      l.Perm ["db.tar.gz.300", "db.tar.gz.100", "db.tar.gz.400", "db.tar.gz.200"] ∧
      pruneLoop 2 (fun _ => none) l [] = .ok (l.drop 2) (l.take 2) ∧
      (l.drop 2).length = 2 ∧
      (l.take 2).length = 2 ∧
      (∀ x ∈ l.take 2, ∀ y ∈ l.drop 2, keyOf x < keyOf y) ∧
      backupImpl ⟨"db", "/data/db"⟩ 2
          ⟨none, .ok ["db.tar.gz.300", "db.tar.gz.100", "db.tar.gz.400", "db.tar.gz.200"],
            fun _ => none⟩ =
        .ok ({ name := "db", err := none },
          [action.glob, action.sort] ++ (l.take 2).map action.remove) :=
  ⟨by decide, by decide,
    prune_keeps_exactly_k ⟨"db", "/data/db"⟩ 2
      ⟨none, .ok ["db.tar.gz.300", "db.tar.gz.100", "db.tar.gz.400", "db.tar.gz.200"],
        fun _ => none⟩
      ["db.tar.gz.300", "db.tar.gz.100", "db.tar.gz.400", "db.tar.gz.200"] 4
      rfl rfl (by decide) (by decide) (fun _ => rfl) rfl (by decide) (by decide)⟩

/-- Claim C6: when a deletion fails mid-prune, the job's outcome carries
that deletion's error; the removals attempted are exactly the successful
prefix plus the failing file (nothing afterwards is attempted), and the
whole still-over-quota tail starting at the failing file stays on the
filesystem. -/
theorem deletion_failure_fail_fast (ent : backupEntry) (keepGen : Int) (env : jobEnv)
    (ms l q : List String) (f : String) (e : goErr) (rem : List String)
    (harch : env.archiveErr = none) (hglob : env.globResult = .ok ms)
    (hsort : sortMatches ms = .ok l)
    (hfail : pruneLoop keepGen env.removeErr l [] = .deletionFailed q f e rem) :
    backupImpl ent keepGen env =
      .ok ({ name := ent.Name, err := some e },
        [action.glob, action.sort] ++ q.map action.remove ++ [action.remove f]) ∧
    env.removeErr f = some e ∧
    (∀ x ∈ q, env.removeErr x = none) ∧
    l = q ++ rem ∧
    rem = f :: rem.tail ∧
    keepGen < (rem.length : Int) := by
  obtain ⟨p, hp1, hp2, hp3, hp4, hp5, hp6⟩ :=
    pruneLoop_deletionFailed_spec keepGen env.removeErr l [] q f e rem hfail
  simp only [List.nil_append] at hp1
  subst hp1
  refine ⟨?_, hp4, hp3, hp2, hp5, hp6⟩
  simp only [backupImpl, harch, hglob, hsort, hfail]

/-- Claim C6 witness: three bundles, keep zero; the oldest is removed, the
removal of the second fails, the third is never attempted. -/
theorem deletion_failure_fail_fast_witness :
    backupImpl ⟨"c", "/data/c"⟩ 0
        ⟨none, .ok ["c.tar.gz.2", "c.tar.gz.1", "c.tar.gz.3"],
          fun s => if s = "c.tar.gz.2" then some "permission denied" else none⟩ =
      .ok ({ name := "c", err := some "permission denied" },
        [action.glob, action.sort] ++ List.map action.remove ["c.tar.gz.1"] ++
          [action.remove "c.tar.gz.2"]) ∧
    (if "c.tar.gz.2" = "c.tar.gz.2" then some "permission denied" else none) =
      some "permission denied" ∧
    (∀ x ∈ (["c.tar.gz.1"] : List String),
      (if x = "c.tar.gz.2" then some "permission denied" else none) = none) ∧
    (["c.tar.gz.1", "c.tar.gz.2", "c.tar.gz.3"] : List String) =
      ["c.tar.gz.1"] ++ ["c.tar.gz.2", "c.tar.gz.3"] ∧
    (["c.tar.gz.2", "c.tar.gz.3"] : List String) =
      "c.tar.gz.2" :: (["c.tar.gz.2", "c.tar.gz.3"] : List String).tail ∧
    (0 : Int) < (((["c.tar.gz.2", "c.tar.gz.3"] : List String).length : Nat) : Int) :=
  deletion_failure_fail_fast ⟨"c", "/data/c"⟩ 0
    ⟨none, .ok ["c.tar.gz.2", "c.tar.gz.1", "c.tar.gz.3"],
      fun s => if s = "c.tar.gz.2" then some "permission denied" else none⟩
    ["c.tar.gz.2", "c.tar.gz.1", "c.tar.gz.3"]
    ["c.tar.gz.1", "c.tar.gz.2", "c.tar.gz.3"]
    ["c.tar.gz.1"] "c.tar.gz.2" "permission denied" ["c.tar.gz.2", "c.tar.gz.3"]
    rfl rfl rfl rfl

/-- With one oracle per entry and no job panicking, the fan-out yields
exactly one result per entry, carrying the entries' names in order. -/
theorem runJobs_ok (keepGen : Int) (es : List backupEntry) :
    ∀ envs : List jobEnv, envs.length = es.length →
      (∀ p ∈ es.zip envs, ∃ r tr, backupImpl p.1 keepGen p.2 = .ok (r, tr)) →
      ∃ rs, runJobs keepGen es envs = .ok rs ∧ rs.length = es.length ∧
        rs.map result.name = es.map backupEntry.Name := by
  induction es with
  | nil =>
    intro envs hlen hok
    exact ⟨[], rfl, rfl, rfl⟩
  | cons e es ih =>
    intro envs hlen hok
    cases envs with
    | nil => simp at hlen
    | cons env envs =>
      obtain ⟨r, tr, hr⟩ := hok (e, env)
        (by rw [List.zip_cons_cons]; exact List.mem_cons_self _ _)
      obtain ⟨rs, hrs, hlen2, hnames⟩ := ih envs (by simpa using hlen)
        (fun p hp => hok p (by rw [List.zip_cons_cons]; exact List.mem_cons_of_mem _ hp))
      refine ⟨r :: rs, ?_, by simp [hlen2], ?_⟩
      · simp only [runJobs, hr, hrs]
      · simp [hnames, backupImpl_ok_name e keepGen env r tr hr]

/-- Claim C4: with one oracle per configured entry, whenever every entry's
job exits through one of its result-producing paths (archive failure,
listing failure, deletion failure, or full success — i.e. no panic), the
run delivers exactly one outcome per entry: N entries yield N outcomes,
and the i-th outcome carries the i-th entry's name, so one entry's failure
never suppresses a sibling's outcome. -/
theorem one_outcome_per_entry (config : backupConfig) (envs : List jobEnv)
    (hlen : envs.length = config.Entries.length)
    (hok : ∀ p ∈ config.Entries.zip envs,
      ∃ r tr, backupImpl p.1 config.KeepGen p.2 = .ok (r, tr)) :
    ∃ rs, backup config envs = .ok rs ∧ rs.length = config.Entries.length ∧
      rs.map result.name = config.Entries.map backupEntry.Name :=
  runJobs_ok config.KeepGen config.Entries envs hlen hok

/-- Claim C4 witness: two entries; entry `a`'s archiver fails, entry `b`
succeeds; the run still yields exactly two outcomes named `a` and `b`. -/
theorem one_outcome_per_entry_witness :
    ([⟨some "tar: exit status 1", .ok [], fun _ => none⟩,
      ⟨none, .ok ["b.tar.gz.9"], fun _ => none⟩] : List jobEnv).length =
      ([⟨"a", "/pa"⟩, ⟨"b", "/pb"⟩] : List backupEntry).length ∧
    ∃ rs, backup ⟨"/tmp/bk", 2, [⟨"a", "/pa"⟩, ⟨"b", "/pb"⟩]⟩
        [⟨some "tar: exit status 1", .ok [], fun _ => none⟩,
         ⟨none, .ok ["b.tar.gz.9"], fun _ => none⟩] = .ok rs ∧
      rs.length = ([⟨"a", "/pa"⟩, ⟨"b", "/pb"⟩] : List backupEntry).length ∧
      rs.map result.name =
        ([⟨"a", "/pa"⟩, ⟨"b", "/pb"⟩] : List backupEntry).map backupEntry.Name := by
  refine ⟨rfl, one_outcome_per_entry ⟨"/tmp/bk", 2, [⟨"a", "/pa"⟩, ⟨"b", "/pb"⟩]⟩
    [⟨some "tar: exit status 1", .ok [], fun _ => none⟩,
     ⟨none, .ok ["b.tar.gz.9"], fun _ => none⟩] rfl ?_⟩
  intro p hp
  simp only [List.zip_cons_cons, List.zip_nil_left, List.mem_cons, List.not_mem_nil,
    or_false] at hp
  rcases hp with rfl | rfl
  · exact ⟨{ name := "a", err := some "tar: exit status 1" }, [], rfl⟩
  · exact ⟨{ name := "b", err := none }, [action.glob, action.sort], rfl⟩

/-- Claim C7: the duplicate-name check passes exactly when the entry names
are pairwise distinct; when it fails, the reported name is the first
duplicate met while scanning in entry order: the name sequence splits as
`u ++ d :: v` where the prefix `u` has no duplicate of its own (no earlier
position is a duplicate) and `d` already occurs in `u`. -/
theorem duplicate_name_detection (config : backupConfig) :
    (isNameDuplicated config = none ↔ (config.Entries.map backupEntry.Name).Nodup) ∧
    ∀ d, isNameDuplicated config = some d →
      ∃ u v, config.Entries.map backupEntry.Name = u ++ d :: v ∧ u.Nodup ∧ d ∈ u := by
  constructor
  · rw [isNameDuplicated, findDup_eq_none]
    simp
  · intro d h
    rw [isNameDuplicated, findDup_eq_some] at h
    obtain ⟨u, v, h1, h2, h3, h4⟩ := h
    refine ⟨u, v, h1, h2, ?_⟩
    rcases h4 with h4 | h4
    · exact absurd h4 (List.not_mem_nil d)
    · exact h4

/-- Claim C7 witness: entries named `a`, `b`, `a`; the scan reports `a`,
the first name whose value was already seen. -/
theorem duplicate_name_detection_witness :
    ∃ u v,
      (([⟨"a", "/p1"⟩, ⟨"b", "/p2"⟩, ⟨"a", "/p3"⟩] : List backupEntry).map backupEntry.Name) =
        u ++ "a" :: v ∧ u.Nodup ∧ "a" ∈ u :=
  (duplicate_name_detection ⟨"/tmp/bk", 2, [⟨"a", "/p1"⟩, ⟨"b", "/p2"⟩, ⟨"a", "/p3"⟩]⟩).2
    "a" rfl

/-- Claim C8 counterexample: a configuration that passes validation, run
against a destination holding a malformed bundle name next to a fresh one:
the backup work panics, so the run aborts with a process crash and the
failure is not carried inside any outcome value. -/
theorem orchestration_crash_counterexample :
    isValid none ⟨"/tmp/bk", 2, [⟨"pg", "/var/pg"⟩]⟩ = none ∧
    backup ⟨"/tmp/bk", 2, [⟨"pg", "/var/pg"⟩]⟩
        [⟨none, .ok ["pg.tar.gz.500", "pg.tar.gz.bad"], fun _ => none⟩] =
      .error goPanic.malformedName :=
  ⟨rfl, rfl⟩

/-- A single job cannot panic when `keepGen` is non-negative and every
match it lists has a parsing timestamp suffix. -/
theorem backupImpl_no_crash (ent : backupEntry) (keepGen : Int) (env : jobEnv)
    (hk : 0 ≤ keepGen)
    (hparse : ∀ ms, env.globResult = .ok ms → ∀ f ∈ ms, (tsKey f).isSome) :
    ∃ r tr, backupImpl ent keepGen env = .ok (r, tr) := by
  cases harch : env.archiveErr with
  | some e =>
    refine ⟨{ name := ent.Name, err := some e }, [], ?_⟩
    simp only [backupImpl, harch]
  | none =>
    cases hglob : env.globResult with
    | error e =>
      refine ⟨{ name := ent.Name, err := some e }, [action.glob], ?_⟩
      simp only [backupImpl, harch, hglob]
    | ok ms =>
      obtain ⟨l, hsort, hperm, hpw⟩ := sortMatches_ok ms (hparse ms hglob)
      cases hploop : pruneLoop keepGen env.removeErr l [] with
      | ok remaining del =>
        refine ⟨{ name := ent.Name, err := none },
          [action.glob, action.sort] ++ del.map action.remove, ?_⟩
        simp only [backupImpl, harch, hglob, hsort, hploop]
      | deletionFailed del f e remaining =>
        refine ⟨{ name := ent.Name, err := some e },
          [action.glob, action.sort] ++ del.map action.remove ++ [action.remove f], ?_⟩
        simp only [backupImpl, harch, hglob, hsort, hploop]
      | outOfBounds d =>
        exact absurd hploop (pruneLoop_no_oob keepGen env.removeErr hk l [] d)

/-- Claim C8 amended: for every validated configuration, provided
`keepGenerations` is non-negative and every listing a job sees contains
only matches whose timestamp suffixes parse (the two panic conditions that
exist in the code), the orchestration never fails: the run completes with
one outcome per entry and every failure is carried only inside an
individual outcome value. -/
theorem orchestration_never_fails_amended (config : backupConfig) (envs : List jobEnv)
    (dstErr : Option goErr)
    (hvalid : isValid dstErr config = none)
    (hlen : envs.length = config.Entries.length)
    (hk : 0 ≤ config.KeepGen)
    (hparse : ∀ env ∈ envs, ∀ ms, env.globResult = .ok ms → ∀ f ∈ ms, (tsKey f).isSome) :
    ∃ rs, backup config envs = .ok rs ∧ rs.length = config.Entries.length := by
  have hok : ∀ p ∈ config.Entries.zip envs,
      ∃ r tr, backupImpl p.1 config.KeepGen p.2 = .ok (r, tr) := by
    rintro ⟨a, b⟩ hp
    exact backupImpl_no_crash a config.KeepGen b hk (hparse b (List.of_mem_zip hp).2)
  obtain ⟨rs, h1, h2, h3⟩ := runJobs_ok config.KeepGen config.Entries envs hlen hok
  exact ⟨rs, h1, h2⟩

/-- Claim C8 amended witness. -/
theorem orchestration_never_fails_amended_witness :
    isValid none ⟨"/tmp/bk", 1, [⟨"h", "/home/h"⟩]⟩ = none ∧
    ∃ rs, backup ⟨"/tmp/bk", 1, [⟨"h", "/home/h"⟩]⟩
        [⟨none, .ok ["h.tar.gz.11", "h.tar.gz.12"], fun _ => none⟩] = .ok rs ∧
      rs.length = ([⟨"h", "/home/h"⟩] : List backupEntry).length := by
  refine ⟨rfl, orchestration_never_fails_amended ⟨"/tmp/bk", 1, [⟨"h", "/home/h"⟩]⟩
    [⟨none, .ok ["h.tar.gz.11", "h.tar.gz.12"], fun _ => none⟩] none rfl rfl (by decide) ?_⟩
  intro env henv ms hms
  rcases List.mem_singleton.mp henv with rfl
  injection hms with h1
  subst h1
  decide
